import Mathlib

/-!
Verification of the dining-philosophers concurrency testbed
(`C-codes/dinning-philosophers.cpp`).

The file shallowly embeds the three strategies of the source:

* `DiningPhilosophersSemaphore` (bounded concurrency behind a counting
  semaphore with `N-1` tokens) — as a labelled transition system `SState`
  / `sAct` / `SReachable`;
* `DiningPhilosophersWaiter` (an arbiter serialising pair grants through
  one mutex) — as pure ledger operations `request_chopsticks` /
  `return_chopsticks` plus a transition system `WState` / `wAct`;
* `DiningPhilosophersTimeout` (bounded-wait acquisition in ascending
  index order with retry cap) — as the pure index computation
  `timeoutFirst` / `timeoutSecond` and a loop model `tLoop` driven by an
  environment choice of per-iteration outcomes.

Throughout, `NUM_PHILOSOPHERS = 5`, the per-actor meal quota is `3` and
the timeout strategy's attempt cap is `10`, as hard-coded in the source.
-/

/-- `NUM_PHILOSOPHERS` from the source (all three classes use 5). -/
def NUM_PHILOSOPHERS : Nat := 5

/-- The right/second resource of actor `id`: `(id + 1) % NUM_PHILOSOPHERS`.
The left/first resource of actor `id` is `id` itself. -/
def rightOf (id : Fin 5) : Fin 5 :=
  ⟨(id.val + 1) % 5, Nat.mod_lt _ (by decide)⟩

theorem rightOf_ne (id : Fin 5) : rightOf id ≠ id := by revert id; decide

theorem rightOf_injective : Function.Injective rightOf := by
  intro a b
  revert a b; decide

/-! ## Timeout strategy: lock-ordering computation

Source lines 229–233:
`int left = id; int right = (id + 1) % NUM_PHILOSOPHERS;
 if (left > right) swap(left, right);`
and the first `try_lock_for` goes to `chopsticks[left]`, the second to
`chopsticks[right]`. -/

/-- Index of the chopstick the timeout-strategy actor tries to lock first
(the value of `left` after the conditional swap). -/
def timeoutFirst (id : Fin 5) : Fin 5 :=
  if rightOf id < id then rightOf id else id

/-- Index of the chopstick the timeout-strategy actor tries to lock second
(the value of `right` after the conditional swap). -/
def timeoutSecond (id : Fin 5) : Fin 5 :=
  if rightOf id < id then id else rightOf id

/-! ## Arbiter (waiter) strategy: ledger operations

Source lines 110–147.  `chopstick_available` is the arbitration ledger;
`request_chopsticks` runs entirely under `waiter_mutex`, waiting on
`waiter_cv` for `can_eat` and then clearing both entries before the lock
is dropped, so each call is one atomic step on the ledger.  The shallow
embedding makes that step a pure function: `some` is a grant, `none`
means the guard is false and the caller stays blocked. -/

/-- The arbitration ledger: availability flag per chopstick index. -/
def WLedger : Type := Fin 5 → Bool

instance : DecidableEq WLedger := by
  unfold WLedger; infer_instance

/-- `can_eat` (source lines 110–114): both chopsticks of the pair
`{id, (id+1) mod 5}` are available. -/
def can_eat (philosopher_id : Fin 5) (avail : WLedger) : Bool :=
  avail philosopher_id && avail (rightOf philosopher_id)

/-- `request_chopsticks` (source lines 117–131) as its atomic effect on the
ledger: if `can_eat` holds, clear both entries of the pair and return the
new ledger; otherwise the caller remains blocked (`none`). -/
def request_chopsticks (philosopher_id : Fin 5) (avail : WLedger) :
    Option WLedger :=
  if can_eat philosopher_id avail then
    some (Function.update
      (Function.update avail philosopher_id false)
      (rightOf philosopher_id) false)
  else
    none

/-- `return_chopsticks` (source lines 134–147) as its atomic effect on the
ledger: set both entries of the pair back to available. -/
def return_chopsticks (philosopher_id : Fin 5) (avail : WLedger) : WLedger :=
  Function.update
    (Function.update avail philosopher_id true)
    (rightOf philosopher_id) true

/-- The all-available ledger (`fill(chopstick_available, ..., true)`,
source line 181). -/
def wLedgerInit : WLedger := fun _ => true

/-! ### C4 -/

/-- C4: in the Timeout strategy every actor locks the lower-indexed
chopstick of its pair `{id, (id+1) mod 5}` first and the higher-indexed
one second, so each successful acquisition is in ascending index order,
independently of actor identity. -/
theorem timeout_lock_order (id : Fin 5) :
    timeoutFirst id = min id (rightOf id) ∧
    timeoutSecond id = max id (rightOf id) ∧
    timeoutFirst id < timeoutSecond id := by
  revert id; decide

/-- Shared helper: full description of a granted `request_chopsticks`
call — the guard held on entry, both pair entries are cleared, all other
entries are untouched. -/
theorem request_chopsticks_spec (id : Fin 5) (avail avail' : WLedger)
    (h : request_chopsticks id avail = some avail') :
    avail id = true ∧ avail (rightOf id) = true ∧
    avail' id = false ∧ avail' (rightOf id) = false ∧
    ∀ j : Fin 5, j ≠ id → j ≠ rightOf id → avail' j = avail j := by
  unfold request_chopsticks at h
  split at h
  case isFalse => exact absurd h (by simp)
  case isTrue hc =>
    have hav : avail id = true ∧ avail (rightOf id) = true := by
      unfold can_eat at hc
      exact ⟨(Bool.and_eq_true _ _ ▸ hc).1, (Bool.and_eq_true _ _ ▸ hc).2⟩
    have havail' : avail' = Function.update
        (Function.update avail id false) (rightOf id) false :=
      (Option.some_injective _ h).symm
    subst havail'
    refine ⟨hav.1, hav.2, ?_, ?_, ?_⟩
    · rw [Function.update_noteq (rightOf_ne id).symm, Function.update_same]
    · rw [Function.update_same]
    · intro j hj1 hj2
      rw [Function.update_noteq hj2, Function.update_noteq hj1]

/-- Shared helper: `return_chopsticks` leaves every entry outside the
caller's pair unchanged. -/
theorem return_chopsticks_outside (id : Fin 5) (st : WLedger) (j : Fin 5)
    (hl : j ≠ id) (hr : j ≠ rightOf id) :
    return_chopsticks id st j = st j := by
  unfold return_chopsticks
  rw [Function.update_noteq hr, Function.update_noteq hl]

/-! ### C2 -/

/-- C2: a grant by `request_chopsticks` happens only from a ledger in which
both entries of the caller's pair are available, and the grant atomically
clears exactly those two entries: the returned ledger has both entries
`false` and every other entry unchanged.  (Atomicity of the step itself is
by construction: the source runs the wait and both writes under
`waiter_mutex`, so the whole call is a single ledger transition and no
intermediate ledger with only one entry cleared is observable.) -/
theorem request_chopsticks_atomic_grant (id : Fin 5) (avail avail' : WLedger)
    (h : request_chopsticks id avail = some avail') :
    avail id = true ∧ avail (rightOf id) = true ∧
    avail' id = false ∧ avail' (rightOf id) = false ∧
    ∀ j : Fin 5, j ≠ id → j ≠ rightOf id → avail' j = avail j :=
  request_chopsticks_spec id avail avail' h

/-- Witness for C2: from the all-available ledger, actor 0's request is
granted and has the stated effect. -/
def wLedgerAfter0 : WLedger :=
  Function.update (Function.update wLedgerInit 0 false) (rightOf 0) false

theorem request_chopsticks_atomic_grant_witness :
    request_chopsticks 0 wLedgerInit = some wLedgerAfter0 ∧
    (wLedgerInit 0 = true ∧ wLedgerInit (rightOf 0) = true ∧
     wLedgerAfter0 0 = false ∧ wLedgerAfter0 (rightOf 0) = false ∧
     ∀ j : Fin 5, j ≠ 0 → j ≠ rightOf 0 → wLedgerAfter0 j = wLedgerInit j) :=
  ⟨rfl, request_chopsticks_atomic_grant 0 wLedgerInit wLedgerAfter0 rfl⟩

/-! ### C9 -/

/-- C9: a granted `request_chopsticks` followed by `return_chopsticks`
restores the ledger exactly: the release sets precisely the pair
`{id, (id+1) mod 5}` back to available, and neither operation touches any
entry outside that pair. -/
theorem request_then_return_roundtrip (id : Fin 5) (avail avail' : WLedger)
    (h : request_chopsticks id avail = some avail') :
    return_chopsticks id avail' = avail ∧
    (∀ j : Fin 5, j ≠ id → j ≠ rightOf id → avail' j = avail j) ∧
    (∀ (st : WLedger) (j : Fin 5), j ≠ id → j ≠ rightOf id →
      return_chopsticks id st j = st j) := by
  have hgrant := request_chopsticks_spec id avail avail' h
  refine ⟨?_, hgrant.2.2.2.2, ?_⟩
  · funext j
    unfold return_chopsticks
    by_cases hr : j = rightOf id
    · subst hr; rw [Function.update_same, hgrant.2.1]
    · rw [Function.update_noteq hr]
      by_cases hl : j = id
      · subst hl; rw [Function.update_same, hgrant.1]
      · rw [Function.update_noteq hl, hgrant.2.2.2.2 j hl hr]
  · intro st j hl hr
    exact return_chopsticks_outside id st j hl hr

/-- Witness for C9: concrete round trip for actor 0 from the all-available
ledger. -/
theorem request_then_return_roundtrip_witness :
    request_chopsticks 0 wLedgerInit = some wLedgerAfter0 ∧
    return_chopsticks 0 wLedgerAfter0 = wLedgerInit :=
  ⟨rfl, (request_then_return_roundtrip 0 wLedgerInit wLedgerAfter0 rfl).1⟩

/-! ## Timeout strategy: per-actor loop model

Source lines 213–276.  The actor loops `while (meals_eaten < 3 && attempts
< 10)`, incrementing `attempts` at the head of every iteration; the body's
only effect on the two counters is `meals_eaten++` when both timed locks
succeed.  Which locks succeed is decided by the scheduler, modelled here
as an environment function from the current attempt count to an outcome.
The loop is embedded with a fuel argument of 10: the guard `attempts < 10`
makes more than 10 iterations impossible from `attempts = 0`, which
`tLoop_exit_cond` below proves. -/

/-- Outcome of one iteration of the timeout actor's loop body, as decided
by the scheduler: both `try_lock_for` calls succeed, only the first
succeeds, or the first already times out. -/
inductive TOutcome
  | mealOk
  | secondTimeout
  | firstTimeout
  deriving DecidableEq

/-- The two per-actor counters of `DiningPhilosophersTimeout::philosopher`
(source lines 218–219). -/
structure TPhil where
  meals_eaten : Nat
  attempts : Nat
  deriving DecidableEq

/-- One iteration of the loop body: `attempts++` at the head (line 222),
then `meals_eaten++` exactly when both locks succeeded (line 246). -/
def tIter (oc : TOutcome) (s : TPhil) : TPhil :=
  match oc with
  | .mealOk => { s with attempts := s.attempts + 1,
                        meals_eaten := s.meals_eaten + 1 }
  | .secondTimeout => { s with attempts := s.attempts + 1 }
  | .firstTimeout => { s with attempts := s.attempts + 1 }

/-- The `while (meals_eaten < 3 && attempts < 10)` loop (line 221),
fuelled. -/
def tLoop (oc : Nat → TOutcome) : Nat → TPhil → TPhil
  | 0, s => s
  | fuel + 1, s =>
    if s.meals_eaten < 3 ∧ s.attempts < 10 then
      tLoop oc fuel (tIter (oc s.attempts) s)
    else s

/-- A full actor run: the loop from `meals_eaten = 0`, `attempts = 0`. -/
def tRun (oc : Nat → TOutcome) : TPhil := tLoop oc 10 ⟨0, 0⟩

/-- The sequence of counter states at each loop-head check of a run. -/
def tTrace (oc : Nat → TOutcome) : Nat → TPhil → List TPhil
  | 0, s => [s]
  | fuel + 1, s =>
    if s.meals_eaten < 3 ∧ s.attempts < 10 then
      s :: tTrace oc fuel (tIter (oc s.attempts) s)
    else [s]

theorem tIter_attempts (oc : TOutcome) (s : TPhil) :
    (tIter oc s).attempts = s.attempts + 1 := by
  cases oc <;> rfl

theorem tIter_meals_le (oc : TOutcome) (s : TPhil) :
    (tIter oc s).meals_eaten ≤ s.meals_eaten + 1 := by
  cases oc <;> simp [tIter]

theorem tLoop_exit_cond (oc : Nat → TOutcome) :
    ∀ (fuel : Nat) (s : TPhil), 10 ≤ s.attempts + fuel →
      ¬ ((tLoop oc fuel s).meals_eaten < 3 ∧
         (tLoop oc fuel s).attempts < 10) := by
  intro fuel
  induction fuel with
  | zero =>
    intro s h
    simp only [tLoop]
    omega
  | succ n ih =>
    intro s h
    simp only [tLoop]
    split
    case isTrue hg =>
      exact ih _ (by rw [tIter_attempts]; omega)
    case isFalse hg =>
      exact hg

theorem tLoop_attempts_le (oc : Nat → TOutcome) :
    ∀ (fuel : Nat) (s : TPhil), s.attempts ≤ 10 →
      (tLoop oc fuel s).attempts ≤ 10 := by
  intro fuel
  induction fuel with
  | zero => intro s h; exact h
  | succ n ih =>
    intro s h
    simp only [tLoop]
    split
    case isTrue hg => exact ih _ (by rw [tIter_attempts]; omega)
    case isFalse hg => exact h

theorem tLoop_meals_le (oc : Nat → TOutcome) :
    ∀ (fuel : Nat) (s : TPhil), s.meals_eaten ≤ 3 →
      (tLoop oc fuel s).meals_eaten ≤ 3 := by
  intro fuel
  induction fuel with
  | zero => intro s h; exact h
  | succ n ih =>
    intro s h
    simp only [tLoop]
    split
    case isTrue hg =>
      refine ih _ ?_
      have := tIter_meals_le (oc s.attempts) s
      omega
    case isFalse hg => exact h

theorem tTrace_budget (oc : Nat → TOutcome) :
    ∀ (fuel : Nat) (s : TPhil), s.meals_eaten ≤ s.attempts →
      ∀ t ∈ tTrace oc fuel s, t.meals_eaten ≤ t.attempts := by
  intro fuel
  induction fuel with
  | zero =>
    intro s h t ht
    simp only [tTrace, List.mem_singleton] at ht
    exact ht ▸ h
  | succ n ih =>
    intro s h t ht
    simp only [tTrace] at ht
    split at ht
    case isTrue hg =>
      rcases List.mem_cons.mp ht with rfl | ht'
      · exact h
      · refine ih _ ?_ t ht'
        have h1 := tIter_attempts (oc s.attempts) s
        have h2 := tIter_meals_le (oc s.attempts) s
        omega
    case isFalse hg =>
      simp only [List.mem_singleton] at ht
      exact ht ▸ h

/-- The scheduler in which the first lock always times out: the actor
never eats and exhausts all 10 attempts. -/
def tAllFail : Nat → TOutcome := fun _ => TOutcome.firstTimeout

/-! ### C5 -/

/-- C5: every timeout-strategy actor run terminates within `maxAttempts
= 10` iterations — the attempt counter grows by exactly one per
iteration, the loop-head condition is `meals_eaten < 3 ∧ attempts < 10`,
the final attempt count is at most 10, and a run that ends with fewer
than 3 meals has made exactly 10 attempts. -/
theorem timeout_attempt_cap (oc : Nat → TOutcome) :
    (∀ (oc' : TOutcome) (s : TPhil), (tIter oc' s).attempts = s.attempts + 1) ∧
    (tRun oc).attempts ≤ 10 ∧
    ((tRun oc).meals_eaten < 3 → (tRun oc).attempts = 10) := by
  refine ⟨tIter_attempts, ?_, ?_⟩
  · exact tLoop_attempts_le oc 10 ⟨0, 0⟩ (by decide)
  · intro hm
    have hexit := tLoop_exit_cond oc 10 ⟨0, 0⟩ (by decide)
    have hle := tLoop_attempts_le oc 10 ⟨0, 0⟩ (by decide)
    unfold tRun at hm ⊢
    omega

/-- Witness for C5: under the always-failing scheduler the run ends with
0 meals and exactly 10 attempts. -/
theorem timeout_attempt_cap_witness :
    (tRun tAllFail).meals_eaten < 3 ∧ (tRun tAllFail).attempts = 10 :=
  ⟨by decide, (timeout_attempt_cap tAllFail).2.2 (by decide)⟩

/-! ### C10 -/

/-- C10: every iteration — successful or not — consumes exactly one unit
of the attempt budget, so `meals_eaten ≤ attempts` holds at every
loop-head check of a run, and a run completes at most `min 3 10` meals. -/
theorem timeout_budget_invariant (oc : Nat → TOutcome) :
    (∀ (oc' : TOutcome) (s : TPhil), (tIter oc' s).attempts = s.attempts + 1) ∧
    (∀ t ∈ tTrace oc 10 ⟨0, 0⟩, t.meals_eaten ≤ t.attempts) ∧
    (tRun oc).meals_eaten ≤ min 3 10 := by
  refine ⟨tIter_attempts, tTrace_budget oc 10 ⟨0, 0⟩ (by decide), ?_⟩
  have := tLoop_meals_le oc 10 ⟨0, 0⟩ (by decide)
  unfold tRun
  omega

/-- Witness for C10: a concrete state of the always-failing run's trace
satisfies the budget invariant, and the run's meal count is below the
cap. -/
theorem timeout_budget_invariant_witness :
    TPhil.mk 0 5 ∈ tTrace tAllFail 10 ⟨0, 0⟩ ∧
    (TPhil.mk 0 5).meals_eaten ≤ (TPhil.mk 0 5).attempts ∧
    (tRun tAllFail).meals_eaten ≤ min 3 10 :=
  ⟨by decide,
   (timeout_budget_invariant tAllFail).2.1 ⟨0, 5⟩ (by decide),
   (timeout_budget_invariant tAllFail).2.2⟩

/-! ## Timeout strategy: order of effects within one loop iteration

Source lines 221–272, transcribed as the sequence of effects of one
iteration per outcome.  The success branch (lines 242–254) reads, in
source order: `meals_eaten++; successful_meals++;` then the eating
delay (consume), then `chopsticks[right].unlock(); chopsticks[left].unlock();`
(`right`/`left` here are the post-swap values, i.e. the second/first
acquired chopstick). -/

/-- Observable effects of the timeout actor's loop body. -/
inductive TEvent
  | incAttempts
  | think
  | tryFirst
  | gotFirst
  | trySecond
  | gotSecond
  | incMealsEaten
  | incSuccessfulMeals
  | consume
  | unlockSecond
  | unlockFirst
  | incTimeouts
  | backoff
  deriving DecidableEq

/-- Effect sequence of one loop iteration per outcome, in source order. -/
def tIterEvents : TOutcome → List TEvent
  | .mealOk =>
    [.incAttempts, .think, .tryFirst, .gotFirst, .trySecond, .gotSecond,
     .incMealsEaten, .incSuccessfulMeals, .consume, .unlockSecond,
     .unlockFirst]
  | .secondTimeout =>
    [.incAttempts, .think, .tryFirst, .gotFirst, .trySecond, .incTimeouts,
     .unlockFirst, .backoff]
  | .firstTimeout =>
    [.incAttempts, .think, .tryFirst, .incTimeouts, .backoff]

/-- Coherence of the event sequences with the counter semantics `tIter`:
the number of counter-increment events in an iteration's sequence matches
the counter change `tIter` performs. -/
theorem tIterEvents_counts (oc : TOutcome) (s : TPhil) :
    (tIter oc s).attempts =
      s.attempts + (tIterEvents oc).count TEvent.incAttempts ∧
    (tIter oc s).meals_eaten =
      s.meals_eaten + (tIterEvents oc).count TEvent.incMealsEaten := by
  cases oc <;> simp [tIter, tIterEvents, List.count_cons, List.count_nil]

/-! ### C8 -/

/-- C8 counterexample: the claim says the success branch performs, in this
order, consume, release both chopsticks, then increment the success
counter; in the source the increment of `successful_meals` happens before
the consume and before both unlocks, so the claimed order is false. -/
theorem timeout_success_order_counterexample :
    ¬ (List.indexOf TEvent.consume (tIterEvents .mealOk) <
         List.indexOf TEvent.unlockSecond (tIterEvents .mealOk) ∧
       List.indexOf TEvent.unlockSecond (tIterEvents .mealOk) <
         List.indexOf TEvent.unlockFirst (tIterEvents .mealOk) ∧
       List.indexOf TEvent.unlockFirst (tIterEvents .mealOk) <
         List.indexOf TEvent.incSuccessfulMeals (tIterEvents .mealOk)) := by
  decide

/-- C8 amended: on a successful acquisition of both resources the actor
increments `meals_eaten` and then the success counter `successful_meals`
first, then consumes, then releases the second-acquired chopstick
followed by the first-acquired one; each of these effects occurs exactly
once in the branch. -/
theorem timeout_success_order :
    List.indexOf TEvent.incMealsEaten (tIterEvents .mealOk) <
      List.indexOf TEvent.incSuccessfulMeals (tIterEvents .mealOk) ∧
    List.indexOf TEvent.incSuccessfulMeals (tIterEvents .mealOk) <
      List.indexOf TEvent.consume (tIterEvents .mealOk) ∧
    List.indexOf TEvent.consume (tIterEvents .mealOk) <
      List.indexOf TEvent.unlockSecond (tIterEvents .mealOk) ∧
    List.indexOf TEvent.unlockSecond (tIterEvents .mealOk) <
      List.indexOf TEvent.unlockFirst (tIterEvents .mealOk) ∧
    (tIterEvents .mealOk).count TEvent.incSuccessfulMeals = 1 ∧
    (tIterEvents .mealOk).count TEvent.consume = 1 ∧
    (tIterEvents .mealOk).count TEvent.unlockSecond = 1 ∧
    (tIterEvents .mealOk).count TEvent.unlockFirst = 1 := by
  decide

/-! ## Arbiter (waiter) strategy: transition system

Source lines 149–194.  Each of the 5 philosopher threads alternates
between `request_chopsticks(id)` and `return_chopsticks(id)`; both
operations run under `waiter_mutex`, so a run is an interleaving of
atomic ledger transitions.  The `eating` flag records which actors are
between a grant and the matching return. -/

/-- Shared state of the waiter demonstration: the ledger and, per actor,
whether it currently holds a granted pair. -/
structure WState where
  avail : WLedger
  eating : Fin 5 → Bool

/-- Actions of the waiter system: an actor's request being granted, or an
actor returning its pair. -/
inductive WAct
  | request (i : Fin 5)
  | ret (i : Fin 5)

/-- Atomic effect of an action: `none` when its guard fails (a blocked
request, or a return by an actor that holds nothing). -/
def wAct : WAct → WState → Option WState
  | .request i, s =>
    if s.eating i = false then
      match request_chopsticks i s.avail with
      | some a' => some ⟨a', Function.update s.eating i true⟩
      | none => none
    else none
  | .ret i, s =>
    if s.eating i = true then
      some ⟨return_chopsticks i s.avail, Function.update s.eating i false⟩
    else none

/-- Initial state (source line 181): every chopstick available, nobody
eating. -/
def wInit : WState := ⟨wLedgerInit, fun _ => false⟩

/-- One interleaving step of the waiter system. -/
def WStep (s s' : WState) : Prop := ∃ a, wAct a s = some s'

/-- States reachable from the initial state of the waiter demonstration. -/
inductive WReachable : WState → Prop
  | init : WReachable wInit
  | step {s s' : WState} : WReachable s → WStep s s' → WReachable s'

/-- Actor `i` owns resource `r`: it holds a granted pair and `r` is one of
its two chopsticks. -/
def wOwns (s : WState) (i r : Fin 5) : Prop :=
  s.eating i = true ∧ (r = i ∨ r = rightOf i)

/-- Inductive invariant of the waiter system: an eating actor's two
ledger entries are unavailable and its right-hand neighbour is not
eating. -/
def WInv (s : WState) : Prop :=
  ∀ i : Fin 5, s.eating i = true →
    s.avail i = false ∧ s.avail (rightOf i) = false ∧
    s.eating (rightOf i) = false

theorem wInv_init : WInv wInit := by
  intro i h
  exact absurd h (by simp [wInit])

theorem wInv_step {s s' : WState} {a : WAct} (hinv : WInv s)
    (hact : wAct a s = some s') : WInv s' := by
  cases a with
  | request i =>
    simp only [wAct] at hact
    split at hact
    case isFalse => exact absurd hact (by simp)
    case isTrue hni =>
      cases hreq : request_chopsticks i s.avail with
      | none => rw [hreq] at hact; exact absurd hact (by simp)
      | some a' =>
        rw [hreq] at hact
        have hs' : s' = ⟨a', Function.update s.eating i true⟩ :=
          (Option.some_injective _ hact).symm
        subst hs'
        have hg := request_chopsticks_spec i s.avail a' hreq
        intro k hk
        dsimp only at hk ⊢
        by_cases hki : k = i
        · subst hki
          refine ⟨hg.2.2.1, hg.2.2.2.1, ?_⟩
          rw [Function.update_noteq (rightOf_ne k)]
          cases hb : s.eating (rightOf k) with
          | false => rfl
          | true =>
            have := (hinv _ hb).1
            rw [hg.2.1] at this
            exact absurd this (by simp)
        · rw [Function.update_apply, if_neg hki] at hk
          have hk' := hinv k hk
          have hrki : rightOf k ≠ i := by
            intro h
            have := hk'.2.1
            rw [h, hg.1] at this
            exact absurd this (by simp)
          refine ⟨?_, ?_, ?_⟩
          · by_cases hkr : k = rightOf i
            · subst hkr; exact hg.2.2.2.1
            · rw [hg.2.2.2.2 k hki hkr]; exact hk'.1
          · by_cases h2 : rightOf k = rightOf i
            · exact absurd (rightOf_injective h2) hki
            · rw [hg.2.2.2.2 _ hrki h2]; exact hk'.2.1
          · rw [Function.update_noteq hrki]; exact hk'.2.2
  | ret i =>
    simp only [wAct] at hact
    split at hact
    case isFalse => exact absurd hact (by simp)
    case isTrue hei =>
      have hs' : s' = ⟨return_chopsticks i s.avail,
          Function.update s.eating i false⟩ :=
        (Option.some_injective _ hact).symm
      subst hs'
      intro k hk
      dsimp only at hk ⊢
      by_cases hki : k = i
      · subst hki
        rw [Function.update_same] at hk
        exact absurd hk (by simp)
      · rw [Function.update_apply, if_neg hki] at hk
        have hk' := hinv k hk
        have hkri : k ≠ rightOf i := by
          intro h
          have := (hinv i hei).2.2
          rw [← h, hk] at this
          exact absurd this (by simp)
        have hrki : rightOf k ≠ i := by
          intro h
          have := hk'.2.2
          rw [h, hei] at this
          exact absurd this (by simp)
        have hrkr : rightOf k ≠ rightOf i := fun h => hki (rightOf_injective h)
        refine ⟨?_, ?_, ?_⟩
        · rw [return_chopsticks_outside i s.avail k hki hkri]; exact hk'.1
        · rw [return_chopsticks_outside i s.avail (rightOf k) hrki hrkr]
          exact hk'.2.1
        · rw [Function.update_noteq hrki]; exact hk'.2.2

/-- Every reachable state of the waiter system satisfies the invariant. -/
theorem wInv_reachable {s : WState} (h : WReachable s) : WInv s := by
  induction h with
  | init => exact wInv_init
  | step _ hstep ih =>
    rcases hstep with ⟨a, ha⟩
    exact wInv_step ih ha

/-! ### C3 -/

/-- C3: in every reachable state of the arbiter strategy, each resource
index is owned by at most one actor — a grant requires both entries of
the pair available and clears them, a return restores them, so the
ledger never shows two actors owning the same chopstick. -/
theorem waiter_unique_ownership {s : WState} (hr : WReachable s)
    (i j r : Fin 5) (hi : wOwns s i r) (hj : wOwns s j r) : i = j := by
  have hinv := wInv_reachable hr
  rcases hi with ⟨hei, hri⟩
  rcases hj with ⟨hej, hrj⟩
  by_contra hne
  rcases hri with rfl | rfl
  · rcases hrj with h | h
    · exact hne (h ▸ rfl)
    · have := (hinv j hej).2.2
      rw [← h, hei] at this
      exact absurd this (by simp)
  · rcases hrj with h | h
    · have := (hinv i hei).2.2
      rw [h, hej] at this
      exact absurd this (by simp)
    · exact hne (rightOf_injective h)

/-- The state after actor 0's request is granted from the initial
state. -/
def wS1 : WState := ⟨wLedgerAfter0, Function.update (fun _ => false) 0 true⟩

theorem wS1_reachable : WReachable wS1 :=
  WReachable.step WReachable.init ⟨WAct.request 0, rfl⟩

/-- Witness for C3: in the reachable state `wS1`, actor 0 owns chopstick 0
and the uniqueness theorem applies. -/
theorem waiter_unique_ownership_witness :
    WReachable wS1 ∧ wOwns wS1 0 0 ∧ (0 : Fin 5) = 0 :=
  ⟨wS1_reachable, ⟨rfl, Or.inl rfl⟩,
   waiter_unique_ownership wS1_reachable 0 0 0 ⟨rfl, Or.inl rfl⟩
     ⟨rfl, Or.inl rfl⟩⟩

/-! ## Bounded-Concurrency (semaphore) strategy: transition system

Source lines 17–96.  Five philosopher threads each run the 3-meal loop of
`DiningPhilosophersSemaphore::philosopher` (lines 30–69): acquire the
dining semaphore (initialised with `NUM_PHILOSOPHERS - 1 = 4` tokens,
line 96), lock chopstick `id`, lock chopstick `(id+1) % 5`, eat, unlock
the right chopstick, unlock the left chopstick, release the semaphore.
The embedding records, per philosopher, a program counter through that
cycle, the semaphore's token count, each chopstick's owner, and each
philosopher's completed meals. -/

/-- Program counter of a semaphore-strategy philosopher inside one meal
cycle of source lines 30–69. -/
inductive SPhase
  | thinking
  | admitted
  | hasLeft
  | eating
  | putRight
  | putLeft
  | done
  deriving DecidableEq

/-- Shared state of the semaphore demonstration. -/
structure SState where
  sem : Nat
  phase : Fin 5 → SPhase
  chop : Fin 5 → Option (Fin 5)
  meals : Fin 5 → Nat

/-- The atomic actions of philosopher `i`, in the order they occur in the
body of the meal loop. -/
inductive SAct
  | acquireSem (i : Fin 5)
  | lockLeft (i : Fin 5)
  | lockRight (i : Fin 5)
  | unlockRight (i : Fin 5)
  | unlockLeft (i : Fin 5)
  | releaseSem (i : Fin 5)

/-- Effect of one atomic action; `none` when it is not enabled (the
semaphore is empty, the chopstick is held by someone, or the philosopher
is not at that point of its cycle). -/
def sAct : SAct → SState → Option SState
  | .acquireSem i, s =>
    if s.phase i = .thinking ∧ s.meals i < 3 ∧ 0 < s.sem then
      some { s with sem := s.sem - 1,
                    phase := Function.update s.phase i .admitted }
    else none
  | .lockLeft i, s =>
    if s.phase i = .admitted ∧ s.chop i = none then
      some { s with chop := Function.update s.chop i (some i),
                    phase := Function.update s.phase i .hasLeft }
    else none
  | .lockRight i, s =>
    if s.phase i = .hasLeft ∧ s.chop (rightOf i) = none then
      some { s with chop := Function.update s.chop (rightOf i) (some i),
                    phase := Function.update s.phase i .eating }
    else none
  | .unlockRight i, s =>
    if s.phase i = .eating then
      some { s with chop := Function.update s.chop (rightOf i) none,
                    phase := Function.update s.phase i .putRight }
    else none
  | .unlockLeft i, s =>
    if s.phase i = .putRight then
      some { s with chop := Function.update s.chop i none,
                    phase := Function.update s.phase i .putLeft }
    else none
  | .releaseSem i, s =>
    if s.phase i = .putLeft then
      some { s with sem := s.sem + 1,
                    meals := Function.update s.meals i (s.meals i + 1),
                    phase := Function.update s.phase i
                      (if s.meals i + 1 < 3 then .thinking else .done) }
    else none

/-- Initial state: the semaphore holds `NUM_PHILOSOPHERS - 1 = 4` tokens
(source line 96), no chopstick is held, no meal is eaten. -/
def sInit : SState := ⟨4, fun _ => .thinking, fun _ => none, fun _ => 0⟩

/-- One interleaving step of the semaphore system. -/
def SStep (s s' : SState) : Prop := ∃ a, sAct a s = some s'

/-- States reachable from the initial state of the semaphore
demonstration. -/
inductive SReachable : SState → Prop
  | init : SReachable sInit
  | step {s s' : SState} : SReachable s → SStep s s' → SReachable s'

/-- 1 when the phase holds an admission token (it is past
`dining_semaphore.acquire()` and before `dining_semaphore.release()`). -/
def tokBit : SPhase → Nat
  | .thinking => 0
  | .done => 0
  | _ => 1

/-- Number of philosophers currently holding an admission token. -/
def tokCount (s : SState) : Nat := ∑ j : Fin 5, tokBit (s.phase j)

theorem tokCount_update (ph : Fin 5 → SPhase) (i : Fin 5) (p : SPhase) :
    (∑ j : Fin 5, tokBit (Function.update ph i p j)) + tokBit (ph i) =
    (∑ j : Fin 5, tokBit (ph j)) + tokBit p := by
  have hfun : (fun j => tokBit (Function.update ph i p j)) =
      Function.update (fun j => tokBit (ph j)) i (tokBit p) := by
    funext j
    by_cases h : j = i
    · subst h; rw [Function.update_same, Function.update_same]
    · rw [Function.update_noteq h, Function.update_noteq h]
  calc (∑ j : Fin 5, tokBit (Function.update ph i p j)) + tokBit (ph i)
      = (∑ j : Fin 5, Function.update (fun j => tokBit (ph j)) i
          (tokBit p) j) + tokBit (ph i) := by rw [hfun]
    _ = (tokBit p + ∑ j in Finset.univ \ {i}, tokBit (ph j)) +
          tokBit (ph i) := by
        rw [Finset.sum_update_of_mem (Finset.mem_univ i)]
    _ = (∑ j : Fin 5, tokBit (ph j)) + tokBit p := by
        rw [Finset.sum_eq_sum_diff_singleton_add (Finset.mem_univ i)
          (fun j => tokBit (ph j))]
        omega

/-- Relation between philosopher `i`'s program counter and the owners of
its two chopsticks (`cl` = owner entry of chopstick `i`, `cr` = owner
entry of chopstick `(i+1) % 5`). -/
def chopOk (i : Fin 5) (p : SPhase) (cl cr : Option (Fin 5)) : Prop :=
  match p with
  | .hasLeft => cl = some i ∧ cr ≠ some i
  | .eating => cl = some i ∧ cr = some i
  | .putRight => cl = some i ∧ cr ≠ some i
  | _ => cl ≠ some i ∧ cr ≠ some i

/-- Philosopher `i` holds exactly the chopsticks its program counter says
it holds. -/
def chopPhaseOk (s : SState) (i : Fin 5) : Prop :=
  chopOk i (s.phase i) (s.chop i) (s.chop (rightOf i))

/-- Relation between a philosopher's program counter and its meal count:
strictly below the quota while inside a cycle, exactly the quota when
finished. -/
def mealOkP (p : SPhase) (m : Nat) : Prop :=
  match p with
  | .thinking => True
  | .done => m = 3
  | _ => m < 3

def mealsOk (s : SState) (i : Fin 5) : Prop :=
  mealOkP (s.phase i) (s.meals i)

/-- Inductive invariant of the semaphore system. -/
def SInv (s : SState) : Prop :=
  s.sem + tokCount s = 4 ∧
  (∀ i : Fin 5, chopPhaseOk s i) ∧
  (∀ (j m : Fin 5), s.chop j = some m → j = m ∨ j = rightOf m) ∧
  (∀ i : Fin 5, mealsOk s i)

theorem sInv_init : SInv sInit := by
  refine ⟨by decide, ?_, ?_, ?_⟩
  · intro k
    exact ⟨fun h => Option.noConfusion h, fun h => Option.noConfusion h⟩
  · intro j m h
    exact Option.noConfusion h
  · intro k
    exact trivial

theorem some_ne_of_ne {a b : Fin 5} (h : a ≠ b) :
    (some a : Option (Fin 5)) ≠ some b :=
  fun hc => h (Option.some_injective _ hc)

theorem sInv_step {s s' : SState} {a : SAct} (hinv : SInv s)
    (hact : sAct a s = some s') : SInv s' := by
  obtain ⟨hsem, hchop, hown, hmeal⟩ := hinv
  cases a with
  | acquireSem i =>
    simp only [sAct] at hact
    split at hact
    case isFalse => exact absurd hact (by simp)
    case isTrue hg =>
      obtain ⟨hph, hm, hpos⟩ := hg
      have hs' : s' = { s with
          sem := s.sem - 1,
          phase := Function.update s.phase i .admitted } :=
        (Option.some_injective _ hact).symm
      subst hs'
      refine ⟨?_, ?_, ?_, ?_⟩
      · have ht := tokCount_update s.phase i SPhase.admitted
        rw [hph, show tokBit SPhase.thinking = 0 from rfl,
          show tokBit SPhase.admitted = 1 from rfl] at ht
        unfold tokCount at hsem ⊢
        dsimp only
        omega
      · intro k
        unfold chopPhaseOk at hchop ⊢
        dsimp only
        by_cases hki : k = i
        · subst hki
          rw [Function.update_same]
          have hk := hchop k
          rw [hph] at hk
          exact hk
        · rw [Function.update_noteq hki]
          exact hchop k
      · intro j m h
        exact hown j m h
      · intro k
        unfold mealsOk at hmeal ⊢
        dsimp only
        by_cases hki : k = i
        · subst hki
          rw [Function.update_same]
          exact hm
        · rw [Function.update_noteq hki]
          exact hmeal k
  | lockLeft i =>
    simp only [sAct] at hact
    split at hact
    case isFalse => exact absurd hact (by simp)
    case isTrue hg =>
      obtain ⟨hph, hch⟩ := hg
      have hs' : s' = { s with
          chop := Function.update s.chop i (some i),
          phase := Function.update s.phase i .hasLeft } :=
        (Option.some_injective _ hact).symm
      subst hs'
      refine ⟨?_, ?_, ?_, ?_⟩
      · have ht := tokCount_update s.phase i SPhase.hasLeft
        rw [hph, show tokBit SPhase.admitted = 1 from rfl,
          show tokBit SPhase.hasLeft = 1 from rfl] at ht
        unfold tokCount at hsem ⊢
        dsimp only
        omega
      · intro k
        unfold chopPhaseOk at hchop ⊢
        dsimp only
        by_cases hki : k = i
        · subst hki
          rw [Function.update_same, Function.update_same,
            Function.update_noteq (rightOf_ne k)]
          have hk := hchop k
          rw [hph] at hk
          exact ⟨rfl, hk.2⟩
        · have e1 : Function.update s.phase i SPhase.hasLeft k = s.phase k :=
            Function.update_noteq hki _ _
          have e2 : Function.update s.chop i (some i) k = s.chop k :=
            Function.update_noteq hki _ _
          rw [e1, e2]
          by_cases hrki : rightOf k = i
          · rw [hrki, Function.update_same]
            have hk := hchop k
            have hsik : (some i : Option (Fin 5)) ≠ some k :=
              some_ne_of_ne (fun h => hki h.symm)
            cases hp : s.phase k <;> rw [hp] at hk
            all_goals first
              | exact ⟨hk.1, hsik⟩
              | (rw [hrki, hch] at hk
                 exact absurd hk.2 (fun h => Option.noConfusion h))
          · rw [Function.update_noteq hrki]
            exact hchop k
      · intro j m h
        dsimp only at h
        by_cases hj : j = i
        · subst hj
          rw [Function.update_same] at h
          exact Or.inl (Option.some_injective _ h)
        · rw [Function.update_noteq hj] at h
          exact hown j m h
      · intro k
        unfold mealsOk at hmeal ⊢
        dsimp only
        by_cases hki : k = i
        · subst hki
          rw [Function.update_same]
          have hk := hmeal k
          rw [hph] at hk
          exact hk
        · rw [Function.update_noteq hki]
          exact hmeal k
  | lockRight i =>
    simp only [sAct] at hact
    split at hact
    case isFalse => exact absurd hact (by simp)
    case isTrue hg =>
      obtain ⟨hph, hch⟩ := hg
      have hs' : s' = { s with
          chop := Function.update s.chop (rightOf i) (some i),
          phase := Function.update s.phase i .eating } :=
        (Option.some_injective _ hact).symm
      subst hs'
      refine ⟨?_, ?_, ?_, ?_⟩
      · have ht := tokCount_update s.phase i SPhase.eating
        rw [hph, show tokBit SPhase.hasLeft = 1 from rfl,
          show tokBit SPhase.eating = 1 from rfl] at ht
        unfold tokCount at hsem ⊢
        dsimp only
        omega
      · intro k
        unfold chopPhaseOk at hchop ⊢
        dsimp only
        by_cases hki : k = i
        · subst hki
          rw [Function.update_same,
            Function.update_noteq (rightOf_ne k).symm,
            Function.update_same]
          have hk := hchop k
          rw [hph] at hk
          exact ⟨hk.1, rfl⟩
        · have e1 : Function.update s.phase i SPhase.eating k = s.phase k :=
            Function.update_noteq hki _ _
          rw [e1]
          by_cases hkri : k = rightOf i
          · subst hkri
            rw [Function.update_same,
              Function.update_noteq (rightOf_ne (rightOf i))]
            have hk := hchop (rightOf i)
            rw [hch] at hk
            cases hp : s.phase (rightOf i) <;> rw [hp] at hk
            all_goals first
              | exact absurd hk.1 (fun h => Option.noConfusion h)
              | exact ⟨some_ne_of_ne (rightOf_ne i).symm, hk.2⟩
          · have e2 : Function.update s.chop (rightOf i) (some i) k =
                s.chop k := Function.update_noteq hkri _ _
            have e3 : Function.update s.chop (rightOf i) (some i)
                (rightOf k) = s.chop (rightOf k) :=
              Function.update_noteq (fun h => hki (rightOf_injective h)) _ _
            rw [e2, e3]
            exact hchop k
      · intro j m h
        dsimp only at h
        by_cases hj : j = rightOf i
        · subst hj
          rw [Function.update_same] at h
          have him := Option.some_injective _ h
          exact Or.inr (congrArg rightOf him)
        · rw [Function.update_noteq hj] at h
          exact hown j m h
      · intro k
        unfold mealsOk at hmeal ⊢
        dsimp only
        by_cases hki : k = i
        · subst hki
          rw [Function.update_same]
          have hk := hmeal k
          rw [hph] at hk
          exact hk
        · rw [Function.update_noteq hki]
          exact hmeal k
  | unlockRight i =>
    simp only [sAct] at hact
    split at hact
    case isFalse => exact absurd hact (by simp)
    case isTrue hph =>
      have hs' : s' = { s with
          chop := Function.update s.chop (rightOf i) none,
          phase := Function.update s.phase i .putRight } :=
        (Option.some_injective _ hact).symm
      subst hs'
      refine ⟨?_, ?_, ?_, ?_⟩
      · have ht := tokCount_update s.phase i SPhase.putRight
        rw [hph, show tokBit SPhase.eating = 1 from rfl,
          show tokBit SPhase.putRight = 1 from rfl] at ht
        unfold tokCount at hsem ⊢
        dsimp only
        omega
      · intro k
        unfold chopPhaseOk at hchop ⊢
        dsimp only
        by_cases hki : k = i
        · subst hki
          rw [Function.update_same,
            Function.update_noteq (rightOf_ne k).symm,
            Function.update_same]
          have hk := hchop k
          rw [hph] at hk
          exact ⟨hk.1, fun h => Option.noConfusion h⟩
        · have e1 : Function.update s.phase i SPhase.putRight k =
              s.phase k := Function.update_noteq hki _ _
          rw [e1]
          by_cases hkri : k = rightOf i
          · subst hkri
            rw [Function.update_same,
              Function.update_noteq (rightOf_ne (rightOf i))]
            have hi := hchop i
            rw [hph] at hi
            have hk := hchop (rightOf i)
            rw [hi.2] at hk
            cases hp : s.phase (rightOf i) <;> rw [hp] at hk
            all_goals first
              | exact absurd hk.1 (some_ne_of_ne (rightOf_ne i).symm)
              | exact ⟨fun h => Option.noConfusion h, hk.2⟩
          · have e2 : Function.update s.chop (rightOf i) none k =
                s.chop k := Function.update_noteq hkri _ _
            have e3 : Function.update s.chop (rightOf i) none (rightOf k) =
                s.chop (rightOf k) :=
              Function.update_noteq (fun h => hki (rightOf_injective h)) _ _
            rw [e2, e3]
            exact hchop k
      · intro j m h
        dsimp only at h
        by_cases hj : j = rightOf i
        · subst hj
          rw [Function.update_same] at h
          exact Option.noConfusion h
        · rw [Function.update_noteq hj] at h
          exact hown j m h
      · intro k
        unfold mealsOk at hmeal ⊢
        dsimp only
        by_cases hki : k = i
        · subst hki
          rw [Function.update_same]
          have hk := hmeal k
          rw [hph] at hk
          exact hk
        · rw [Function.update_noteq hki]
          exact hmeal k
  | unlockLeft i =>
    simp only [sAct] at hact
    split at hact
    case isFalse => exact absurd hact (by simp)
    case isTrue hph =>
      have hs' : s' = { s with
          chop := Function.update s.chop i none,
          phase := Function.update s.phase i .putLeft } :=
        (Option.some_injective _ hact).symm
      subst hs'
      refine ⟨?_, ?_, ?_, ?_⟩
      · have ht := tokCount_update s.phase i SPhase.putLeft
        rw [hph, show tokBit SPhase.putRight = 1 from rfl,
          show tokBit SPhase.putLeft = 1 from rfl] at ht
        unfold tokCount at hsem ⊢
        dsimp only
        omega
      · intro k
        unfold chopPhaseOk at hchop ⊢
        dsimp only
        by_cases hki : k = i
        · subst hki
          rw [Function.update_same, Function.update_same,
            Function.update_noteq (rightOf_ne k)]
          have hk := hchop k
          rw [hph] at hk
          exact ⟨fun h => Option.noConfusion h, hk.2⟩
        · have e1 : Function.update s.phase i SPhase.putLeft k = s.phase k :=
            Function.update_noteq hki _ _
          have e2 : Function.update s.chop i none k = s.chop k :=
            Function.update_noteq hki _ _
          rw [e1, e2]
          by_cases hrki : rightOf k = i
          · rw [hrki, Function.update_same]
            have hi := hchop i
            rw [hph] at hi
            have hk := hchop k
            have hsik : (some i : Option (Fin 5)) ≠ some k :=
              some_ne_of_ne (fun h => hki h.symm)
            cases hp : s.phase k <;> rw [hp] at hk
            all_goals first
              | exact ⟨hk.1, fun h => Option.noConfusion h⟩
              | (rw [hrki, hi.1] at hk
                 exact absurd hk.2 hsik)
          · rw [Function.update_noteq hrki]
            exact hchop k
      · intro j m h
        dsimp only at h
        by_cases hj : j = i
        · subst hj
          rw [Function.update_same] at h
          exact Option.noConfusion h
        · rw [Function.update_noteq hj] at h
          exact hown j m h
      · intro k
        unfold mealsOk at hmeal ⊢
        dsimp only
        by_cases hki : k = i
        · subst hki
          rw [Function.update_same]
          have hk := hmeal k
          rw [hph] at hk
          exact hk
        · rw [Function.update_noteq hki]
          exact hmeal k
  | releaseSem i =>
    simp only [sAct] at hact
    split at hact
    case isFalse => exact absurd hact (by simp)
    case isTrue hph =>
      have hs' : s' = { s with
          sem := s.sem + 1,
          meals := Function.update s.meals i (s.meals i + 1),
          phase := Function.update s.phase i
            (if s.meals i + 1 < 3 then .thinking else .done) } :=
        (Option.some_injective _ hact).symm
      subst hs'
      refine ⟨?_, ?_, ?_, ?_⟩
      · have ht := tokCount_update s.phase i
          (if s.meals i + 1 < 3 then SPhase.thinking else SPhase.done)
        rw [hph] at ht
        have hbp : tokBit
            (if s.meals i + 1 < 3 then SPhase.thinking else SPhase.done) =
            0 := by
          split <;> rfl
        rw [hbp, show tokBit SPhase.putLeft = 1 from rfl] at ht
        unfold tokCount at hsem ⊢
        dsimp only
        omega
      · intro k
        unfold chopPhaseOk at hchop ⊢
        dsimp only
        by_cases hki : k = i
        · subst hki
          rw [Function.update_same]
          have hk := hchop k
          rw [hph] at hk
          split
          · exact hk
          · exact hk
        · rw [Function.update_noteq hki]
          exact hchop k
      · intro j m h
        exact hown j m h
      · intro k
        unfold mealsOk at hmeal ⊢
        dsimp only
        by_cases hki : k = i
        · subst hki
          rw [Function.update_same, Function.update_same]
          have hk := hmeal k
          rw [hph] at hk
          split
          next => exact trivial
          next h3 =>
            have hk3 : s.meals k < 3 := hk
            show s.meals k + 1 = 3
            omega
        · rw [Function.update_noteq hki, Function.update_noteq hki]
          exact hmeal k

/-- Every reachable state of the semaphore system satisfies the
invariant. -/
theorem sInv_reachable {s : SState} (h : SReachable s) : SInv s := by
  induction h with
  | init => exact sInv_init
  | step _ hstep ih =>
    rcases hstep with ⟨a, ha⟩
    exact sInv_step ih ha

/-- 1 when the phase is past admission and holding or trying to lock a
chopstick (the claim's notion of "attempting resource acquisition"). -/
def acqBit : SPhase → Nat
  | .admitted => 1
  | .hasLeft => 1
  | .eating => 1
  | .putRight => 1
  | _ => 0

/-- Number of philosophers past admission and holding or trying to lock a
chopstick. -/
def acqCount (s : SState) : Nat := ∑ j : Fin 5, acqBit (s.phase j)

theorem acqBit_le_tokBit (p : SPhase) : acqBit p ≤ tokBit p := by
  cases p <;> decide

/-- Deterministic executor: apply a list of actions, skipping the ones
that are not enabled.  Used to build concrete reachable states. -/
def execD (acts : List SAct) (s : SState) : SState :=
  acts.foldl (fun t a => (sAct a t).getD t) s

theorem execD_reachable (acts : List SAct) (s : SState) (h : SReachable s) :
    SReachable (execD acts s) := by
  induction acts generalizing s with
  | nil => exact h
  | cons a rest ih =>
    show SReachable (execD rest ((sAct a s).getD s))
    cases hact : sAct a s with
    | none => exact ih s h
    | some t => exact ih t (SReachable.step h ⟨a, hact⟩)

/-- One full meal cycle of philosopher `i`, in program order. -/
def sCycle (i : Fin 5) : List SAct :=
  [.acquireSem i, .lockLeft i, .lockRight i,
   .unlockRight i, .unlockLeft i, .releaseSem i]

/-- A run that lets each philosopher in turn complete its three meals. -/
def sSchedule : List SAct :=
  ((List.finRange 5).map (fun i => sCycle i ++ sCycle i ++ sCycle i)).flatten

/-- End state of the sequential schedule. -/
def sFinal : SState := execD sSchedule sInit

theorem sFinal_reachable : SReachable sFinal :=
  execD_reachable sSchedule sInit SReachable.init

/-- State after philosopher 0 acquires the semaphore from the start. -/
def sAcq0 : SState := execD [.acquireSem 0] sInit

theorem sAcq0_reachable : SReachable sAcq0 :=
  execD_reachable [.acquireSem 0] sInit SReachable.init

/-- State after philosopher 0 acquires the semaphore and both
chopsticks. -/
def sEat0 : SState := execD [.acquireSem 0, .lockLeft 0, .lockRight 0] sInit

theorem sEat0_reachable : SReachable sEat0 :=
  execD_reachable [.acquireSem 0, .lockLeft 0, .lockRight 0] sInit
    SReachable.init

/-! ### C1 -/

/-- C1: the semaphore starts with exactly `N-1 = 4` tokens, and in every
reachable state at most 4 philosophers are past admission (counted both
as all token holders and as the claim's set of actors holding or trying
to lock a chopstick); consequently the full circular wait — all five
philosophers holding their left chopstick while waiting for their right
one — is impossible in any reachable state. -/
theorem semaphore_bounded_concurrency {s : SState} (hr : SReachable s) :
    sInit.sem = 4 ∧ acqCount s ≤ 4 ∧ tokCount s ≤ 4 ∧
    ¬ (∀ i : Fin 5, s.phase i = SPhase.hasLeft) := by
  obtain ⟨hsem, hchop, hown, hmeal⟩ := sInv_reachable hr
  have htok : tokCount s ≤ 4 := by omega
  have hacq : acqCount s ≤ tokCount s :=
    Finset.sum_le_sum (fun j _ => acqBit_le_tokBit (s.phase j))
  refine ⟨rfl, by omega, htok, ?_⟩
  intro hall
  have h5 : tokCount s = 5 := by
    unfold tokCount
    rw [Finset.sum_congr rfl (fun j _ => by rw [hall j])]
    decide
  omega

/-- Witness for C1: after philosopher 0 is admitted, the bound holds. -/
theorem semaphore_bounded_concurrency_witness :
    SReachable sAcq0 ∧ acqCount sAcq0 ≤ 4 ∧
    ¬ (∀ i : Fin 5, sAcq0.phase i = SPhase.hasLeft) :=
  ⟨sAcq0_reachable,
   (semaphore_bounded_concurrency sAcq0_reachable).2.1,
   (semaphore_bounded_concurrency sAcq0_reachable).2.2.2⟩

/-! ### C6 -/

/-- C6: in every completed run of the semaphore strategy (all
philosophers in their final phase) each philosopher has eaten exactly 3
meals, the total number of consumptions is exactly `5 × 3 = 15`, and any
two completed runs have the same total. -/
theorem semaphore_total_consumptions {s s' : SState}
    (hr : SReachable s) (hr' : SReachable s')
    (hd : ∀ i : Fin 5, s.phase i = SPhase.done)
    (hd' : ∀ i : Fin 5, s'.phase i = SPhase.done) :
    (∀ i : Fin 5, s.meals i = 3) ∧
    (∑ i : Fin 5, s.meals i) = 15 ∧
    (∑ i : Fin 5, s.meals i) = (∑ i : Fin 5, s'.meals i) := by
  have h3 : ∀ (t : SState), SReachable t →
      (∀ i : Fin 5, t.phase i = SPhase.done) → ∀ i : Fin 5, t.meals i = 3 := by
    intro t ht hdt i
    have hm := (sInv_reachable ht).2.2.2 i
    unfold mealsOk at hm
    rw [hdt i] at hm
    exact hm
  have e1 : (∑ i : Fin 5, s.meals i) = ∑ _i : Fin 5, (3 : Nat) :=
    Finset.sum_congr rfl (fun i _ => h3 s hr hd i)
  have e2 : (∑ i : Fin 5, s'.meals i) = ∑ _i : Fin 5, (3 : Nat) :=
    Finset.sum_congr rfl (fun i _ => h3 s' hr' hd' i)
  refine ⟨h3 s hr hd, ?_, ?_⟩
  · rw [e1]; decide
  · rw [e1, e2]

set_option maxRecDepth 20000 in
/-- Witness for C6: the sequential schedule completes all 5 philosophers
and totals exactly 15 meals. -/
theorem semaphore_total_consumptions_witness :
    (∀ i : Fin 5, sFinal.phase i = SPhase.done) ∧
    (∑ i : Fin 5, sFinal.meals i) = 15 :=
  ⟨by decide,
   (semaphore_total_consumptions sFinal_reachable sFinal_reachable
     (by decide) (by decide)).2.1⟩

/-! ### C7 -/

/-- C7: the semaphore-strategy cycle follows the order of source lines
39–64 — in every reachable state, a philosopher holding its right
chopstick also holds its left one (left is locked before right and right
is unlocked before left), a philosopher holding any chopstick holds an
admission token (the token is acquired first and released last), a
philosopher in the eating phase holds both chopsticks, and a philosopher
that has released its right chopstick still holds its left one. -/
theorem semaphore_cycle_order {s : SState} (hr : SReachable s) :
    ∀ i : Fin 5,
      (s.chop (rightOf i) = some i → s.chop i = some i) ∧
      ((s.chop i = some i ∨ s.chop (rightOf i) = some i) →
        tokBit (s.phase i) = 1) ∧
      (s.phase i = SPhase.eating →
        s.chop i = some i ∧ s.chop (rightOf i) = some i) ∧
      (s.phase i = SPhase.putRight →
        s.chop i = some i ∧ s.chop (rightOf i) ≠ some i) := by
  intro i
  have hk := (sInv_reachable hr).2.1 i
  unfold chopPhaseOk at hk
  refine ⟨?_, ?_, ?_, ?_⟩
  · intro h
    cases hp : s.phase i <;> rw [hp] at hk
    all_goals first | exact hk.1 | exact absurd h hk.2
  · intro h
    cases hp : s.phase i <;> rw [hp] at hk
    all_goals first
      | rfl
      | (cases h with
         | inl h => exact absurd h hk.1
         | inr h => exact absurd h hk.2)
  · intro hp
    rw [hp] at hk
    exact hk
  · intro hp
    rw [hp] at hk
    exact hk

/-- Witness for C7: with philosopher 0 eating, it holds both of its
chopsticks. -/
theorem semaphore_cycle_order_witness :
    SReachable sEat0 ∧ sEat0.phase 0 = SPhase.eating ∧
    (sEat0.chop 0 = some 0 ∧ sEat0.chop (rightOf 0) = some 0) :=
  ⟨sEat0_reachable, by decide,
   ((semaphore_cycle_order sEat0_reachable) 0).2.2.1 (by decide)⟩
